import Mathlib

/-
  Verification development for the matching core of the clap argument parser.

  Shallow embedding of src/parser/matches/matched_arg.rs: the MatchedArg
  record and its operations, plus a model of the positional/optional
  resolution algorithm described in the specification (its implementation
  is not part of the sources here, only its tests are).

  OsString raw values are modelled as String; the type-erased AnyValue is
  modelled as a type parameter.
-/

namespace Clap

/-- Modelled from the spec: the Value Source tag, an ordered enumeration
DefaultValue < EnvVariable < CommandLine (its enum declaration lives outside
the provided sources; the order is the one the spec states). -/
inductive ValueSource where
  | DefaultValue
  | EnvVariable
  | CommandLine
deriving DecidableEq, Repr

/-- Rank of a ValueSource in the order DefaultValue < EnvVariable < CommandLine. -/
def ValueSource.toNat : ValueSource → Nat
  | .DefaultValue => 0
  | .EnvVariable => 1
  | .CommandLine => 2

/-- Maximum of two value sources under the spec's order (Rust Ord::max). -/
def ValueSource.max (a b : ValueSource) : ValueSource :=
  if a.toNat ≤ b.toNat then b else a

/-- Predicate over a matched argument: equality against a raw value, or presence
(builder::ArgPredicate). -/
inductive ArgPredicate where
  | Equals (val : String)
  | IsPresent

/-- ASCII lower-casing of a single character, as Rust's eq_ignore_ascii_case uses. -/
def asciiLower (c : Char) : Char :=
  if 'A' ≤ c ∧ c ≤ 'Z' then Char.ofNat (c.toNat + 32) else c

/-- Modelled from the spec: case-insensitive string comparison
(util::eq_ignore_case, ASCII case folding; its definition lives outside the
provided sources). -/
def eq_ignore_case (a b : String) : Bool :=
  a.data.map asciiLower = b.data.map asciiLower

/-- The MatchedArg record of matched_arg.rs: occurrence count, value source,
token indices, grouped typed values and grouped raw values, case flag. -/
structure MatchedArg (α : Type) where
  occurs : Nat
  ty : Option ValueSource
  indices : List Nat
  vals : List (List α)
  raw_vals : List (List String)
  ignore_case : Bool

/-- MatchedArg::new. -/
def MatchedArg.new {α : Type} : MatchedArg α :=
  ⟨0, none, [], [], [], false⟩

/-- MatchedArg::inc_occurrences. -/
def MatchedArg.inc_occurrences {α : Type} (m : MatchedArg α) : MatchedArg α :=
  ⟨m.occurs + 1, m.ty, m.indices, m.vals, m.raw_vals, m.ignore_case⟩

/-- MatchedArg::get_occurrences. -/
def MatchedArg.get_occurrences {α : Type} (m : MatchedArg α) : Nat :=
  m.occurs

/-- MatchedArg::get_index. -/
def MatchedArg.get_index {α : Type} (m : MatchedArg α) (index : Nat) : Option Nat :=
  m.indices[index]?

/-- MatchedArg::push_index. -/
def MatchedArg.push_index {α : Type} (m : MatchedArg α) (index : Nat) : MatchedArg α :=
  ⟨m.occurs, m.ty, m.indices ++ [index], m.vals, m.raw_vals, m.ignore_case⟩

/-- MatchedArg::vals_flatten. -/
def MatchedArg.vals_flatten {α : Type} (m : MatchedArg α) : List α :=
  m.vals.flatten

/-- MatchedArg::raw_vals_flatten. -/
def MatchedArg.raw_vals_flatten {α : Type} (m : MatchedArg α) : List String :=
  m.raw_vals.flatten

/-- MatchedArg::first. -/
def MatchedArg.first {α : Type} (m : MatchedArg α) : Option α :=
  m.vals_flatten.head?

/-- MatchedArg::first_raw. -/
def MatchedArg.first_raw {α : Type} (m : MatchedArg α) : Option String :=
  m.raw_vals_flatten.head?

/-- MatchedArg::push_val: push a fresh singleton group onto both sequences. -/
def MatchedArg.push_val {α : Type} (m : MatchedArg α) (val : α) (raw_val : String) :
    MatchedArg α :=
  ⟨m.occurs, m.ty, m.indices, m.vals ++ [[val]], m.raw_vals ++ [[raw_val]], m.ignore_case⟩

/-- MatchedArg::new_val_group: push an empty group onto both sequences. -/
def MatchedArg.new_val_group {α : Type} (m : MatchedArg α) : MatchedArg α :=
  ⟨m.occurs, m.ty, m.indices, m.vals ++ [[]], m.raw_vals ++ [[]], m.ignore_case⟩

/-- Append an element to the last group of a list of groups; none when there is
no group (the expect(INTERNAL_ERROR_MSG) panic of append_val). -/
def appendLastGroup {β : Type} (x : β) : List (List β) → Option (List (List β))
  | [] => none
  | [g] => some [g ++ [x]]
  | g :: g2 :: rest => (appendLastGroup x (g2 :: rest)).map (fun t => g :: t)

/-- MatchedArg::append_val: append to the last existing group of both sequences;
none models the panic taken when no group exists. -/
def MatchedArg.append_val {α : Type} (m : MatchedArg α) (val : α) (raw_val : String) :
    Option (MatchedArg α) :=
  (appendLastGroup val m.vals).bind (fun vals2 =>
    (appendLastGroup raw_val m.raw_vals).map (fun raws2 =>
      ⟨m.occurs, m.ty, m.indices, vals2, raws2, m.ignore_case⟩))

/-- MatchedArg::num_vals: flattened count of values across all groups. -/
def MatchedArg.num_vals {α : Type} (m : MatchedArg α) : Nat :=
  m.vals.flatten.length

/-- MatchedArg::num_vals_last_group. -/
def MatchedArg.num_vals_last_group {α : Type} (m : MatchedArg α) : Nat :=
  match m.vals.getLast? with
  | some g => g.length
  | none => 0

/-- MatchedArg::all_val_groups_empty. -/
def MatchedArg.all_val_groups_empty {α : Type} (m : MatchedArg α) : Bool :=
  m.vals.flatten.length == 0

/-- MatchedArg::has_val_groups. -/
def MatchedArg.has_val_groups {α : Type} (m : MatchedArg α) : Bool :=
  !m.vals.isEmpty

/-- MatchedArg::check_explicit: always false for a default-sourced record;
otherwise an equality predicate scans the flattened raw values (case-insensitively
when ignore_case is set) and a presence predicate holds. -/
def MatchedArg.check_explicit {α : Type} (m : MatchedArg α) (predicate : ArgPredicate) :
    Bool :=
  if m.ty = some ValueSource.DefaultValue then
    false
  else
    match predicate with
    | .Equals val =>
        m.raw_vals.flatten.any (fun v =>
          if m.ignore_case then eq_ignore_case v val else v == val)
    | .IsPresent => true

/-- MatchedArg::source. -/
def MatchedArg.source {α : Type} (m : MatchedArg α) : Option ValueSource :=
  m.ty

/-- MatchedArg::update_ty: merge a new value source with the stored one by maximum. -/
def MatchedArg.update_ty {α : Type} (m : MatchedArg α) (ty : ValueSource) : MatchedArg α :=
  match m.ty with
  | some existing =>
      ⟨m.occurs, some (existing.max ty), m.indices, m.vals, m.raw_vals, m.ignore_case⟩
  | none =>
      ⟨m.occurs, some ty, m.indices, m.vals, m.raw_vals, m.ignore_case⟩

/-- MatchedArg::set_ignore_case. -/
def MatchedArg.set_ignore_case {α : Type} (m : MatchedArg α) (yes : Bool) : MatchedArg α :=
  ⟨m.occurs, m.ty, m.indices, m.vals, m.raw_vals, yes⟩

/-- The PartialEq implementation of MatchedArg: field-by-field comparison over
occurs, ty, indices, raw_vals and ignore_case, deliberately skipping vals. -/
def MatchedArg.eq {α : Type} (m1 m2 : MatchedArg α) : Bool :=
  decide (m1.occurs = m2.occurs) && decide (m1.ty = m2.ty) &&
    decide (m1.indices = m2.indices) && decide (m1.raw_vals = m2.raw_vals) &&
    decide (m1.ignore_case = m2.ignore_case)

/-- Grouping operations of the record: open a new group (new_val_group), push a
singleton group (push_val), append to the last group (append_val). -/
inductive ValOp (α : Type) where
  | newGroup : ValOp α
  | pushOne (v : α) (r : String) : ValOp α
  | appendOne (v : α) (r : String) : ValOp α

/-- Apply one grouping operation; append_val may fail (panic) with no group. -/
def MatchedArg.applyValOp {α : Type} (m : MatchedArg α) : ValOp α → Option (MatchedArg α)
  | .newGroup => some m.new_val_group
  | .pushOne v r => some (m.push_val v r)
  | .appendOne v r => m.append_val v r

/-- Apply a sequence of grouping operations left to right. -/
def MatchedArg.applyValOps {α : Type} (m : MatchedArg α) :
    List (ValOp α) → Option (MatchedArg α)
  | [] => some m
  | op :: rest => (m.applyValOp op).bind (fun m2 => m2.applyValOps rest)

/-- Total number of values an operation pushes (one for pushOne and appendOne). -/
def ValOp.valCount {α : Type} : ValOp α → Nat
  | .newGroup => 0
  | .pushOne _ _ => 1
  | .appendOne _ _ => 1

/-- Total number of values pushed by a sequence of grouping operations. -/
def valOpsCount {α : Type} (ops : List (ValOp α)) : Nat :=
  (ops.map ValOp.valCount).sum

/-- The full set of public mutating operations of the record. -/
inductive RecOp (α : Type) where
  | incOcc : RecOp α
  | pushIdx (i : Nat) : RecOp α
  | pushOneOp (v : α) (r : String) : RecOp α
  | newGroupOp : RecOp α
  | appendOp (v : α) (r : String) : RecOp α
  | setIgnore (b : Bool) : RecOp α
  | recSource (s : ValueSource) : RecOp α

/-- Apply one public operation; append may fail (panic) with no group. -/
def MatchedArg.applyRecOp {α : Type} (m : MatchedArg α) : RecOp α → Option (MatchedArg α)
  | .incOcc => some m.inc_occurrences
  | .pushIdx i => some (m.push_index i)
  | .pushOneOp v r => some (m.push_val v r)
  | .newGroupOp => some m.new_val_group
  | .appendOp v r => m.append_val v r
  | .setIgnore b => some (m.set_ignore_case b)
  | .recSource s => some (m.update_ty s)

/-- Apply a sequence of public operations left to right. -/
def MatchedArg.applyRecOps {α : Type} (m : MatchedArg α) :
    List (RecOp α) → Option (MatchedArg α)
  | [] => some m
  | op :: rest => (m.applyRecOp op).bind (fun m2 => m2.applyRecOps rest)

/-- Number of inc_occurrences calls in a sequence of public operations. -/
def recOpsOccCount {α : Type} (ops : List (RecOp α)) : Nat :=
  (ops.filterMap (fun op =>
    match op with
    | RecOp.incOcc => some 1
    | _ => none)).length

/-- The indices pushed by a sequence of public operations, in call order. -/
def recOpsIndices {α : Type} (ops : List (RecOp α)) : List Nat :=
  ops.filterMap (fun op =>
    match op with
    | RecOp.pushIdx i => some i
    | _ => none)

/-- Fold of record_source calls over a list of sources. -/
def MatchedArg.applySources {α : Type} (m : MatchedArg α) (l : List ValueSource) :
    MatchedArg α :=
  l.foldl MatchedArg.update_ty m

/-- Merge an optional current source with a new one by maximum. -/
def optMax (acc : Option ValueSource) (s : ValueSource) : Option ValueSource :=
  match acc with
  | none => some s
  | some t => some (t.max s)

/-- Maximum source of a list, none for the empty list. -/
def sourceMax (l : List ValueSource) : Option ValueSource :=
  l.foldl optMax none

/-- Rank of an optional source: none below every stored source. -/
def sourceRank : Option ValueSource → Nat
  | none => 0
  | some s => s.toNat + 1

lemma ValueSource.max_eq_or (a b : ValueSource) : a.max b = a ∨ a.max b = b := by
  unfold ValueSource.max
  split
  · exact Or.inr rfl
  · exact Or.inl rfl

lemma ValueSource.toNat_le_max_left (a b : ValueSource) : a.toNat ≤ (a.max b).toNat := by
  cases a <;> cases b <;> decide

lemma ValueSource.toNat_le_max_right (a b : ValueSource) : b.toNat ≤ (a.max b).toNat := by
  cases a <;> cases b <;> decide

lemma MatchedArg.update_ty_ty {α : Type} (m : MatchedArg α) (s : ValueSource) :
    (m.update_ty s).ty = optMax m.ty s := by
  cases h : m.ty <;> simp [MatchedArg.update_ty, optMax, h]

lemma MatchedArg.applySources_ty {α : Type} (l : List ValueSource) :
    ∀ m : MatchedArg α, (m.applySources l).ty = l.foldl optMax m.ty := by
  induction l with
  | nil => intro m; rfl
  | cons s rest ih =>
      intro m
      have h1 : m.applySources (s :: rest) = (m.update_ty s).applySources rest := rfl
      rw [h1, ih, List.foldl_cons, MatchedArg.update_ty_ty]

lemma foldl_optMax_some (l : List ValueSource) :
    ∀ t : ValueSource, ∃ mx, l.foldl optMax (some t) = some mx ∧
      (mx = t ∨ mx ∈ l) ∧ t.toNat ≤ mx.toNat ∧ ∀ s ∈ l, s.toNat ≤ mx.toNat := by
  induction l with
  | nil =>
      intro t
      exact ⟨t, rfl, Or.inl rfl, Nat.le_refl _, by simp⟩
  | cons s rest ih =>
      intro t
      obtain ⟨mx, h1, h2, h3, h4⟩ := ih (t.max s)
      refine ⟨mx, ?_, ?_, ?_, ?_⟩
      · simpa [optMax] using h1
      · rcases h2 with h2 | h2
        · rcases ValueSource.max_eq_or t s with hm | hm
          · exact Or.inl (h2.trans hm)
          · exact Or.inr (by rw [h2, hm]; exact List.mem_cons_self s rest)
        · exact Or.inr (List.mem_cons_of_mem s h2)
      · exact Nat.le_trans (ValueSource.toNat_le_max_left t s) h3
      · intro u hu
        rcases List.mem_cons.mp hu with hu | hu
        · subst hu
          exact Nat.le_trans (ValueSource.toNat_le_max_right t u) h3
        · exact h4 u hu

/-- Claim C2: a record whose source is DefaultValue never satisfies check_explicit,
for any predicate and regardless of the stored raw values. -/
theorem default_source_never_matches {α : Type} (m : MatchedArg α)
    (predicate : ArgPredicate) (h : m.source = some ValueSource.DefaultValue) :
    m.check_explicit predicate = false := by
  have hty : m.ty = some ValueSource.DefaultValue := h
  simp [MatchedArg.check_explicit, hty]

/-- Witness for claim C2: a default-sourced record whose raw values contain the
compared string still fails both predicates. -/
theorem default_source_never_matches_witness :
    MatchedArg.check_explicit
        (⟨1, some ValueSource.DefaultValue, [0], [[0]], [["x"]], false⟩ : MatchedArg Nat)
        (ArgPredicate.Equals "x") = false
    ∧ MatchedArg.check_explicit
        (⟨1, some ValueSource.DefaultValue, [0], [[0]], [["x"]], false⟩ : MatchedArg Nat)
        ArgPredicate.IsPresent = false :=
  ⟨default_source_never_matches _ _ rfl, default_source_never_matches _ _ rfl⟩

/-- Claim C3: folding record_source over any list of sources leaves source equal
to the maximum source seen (sourceMax), sourceMax really is a maximum for the
order DefaultValue < EnvVariable < CommandLine, it exists for a nonempty list,
and a single record_source call never lowers the source rank. -/
theorem record_source_monotone_max :
    (∀ (α : Type) (l : List ValueSource),
      ((MatchedArg.new : MatchedArg α).applySources l).source = sourceMax l)
    ∧ (∀ (α : Type) (m : MatchedArg α) (s : ValueSource),
        sourceRank m.source ≤ sourceRank (m.update_ty s).source)
    ∧ (∀ (l : List ValueSource) (mx : ValueSource), sourceMax l = some mx →
        mx ∈ l ∧ ∀ s ∈ l, s.toNat ≤ mx.toNat)
    ∧ (∀ l : List ValueSource, l ≠ [] → (sourceMax l).isSome = true) := by
  refine ⟨?_, ?_, ?_, ?_⟩
  · intro α l
    exact MatchedArg.applySources_ty l MatchedArg.new
  · intro α m s
    rw [MatchedArg.source, MatchedArg.source, MatchedArg.update_ty_ty]
    cases h : m.ty with
    | none => exact Nat.zero_le _
    | some t =>
        simp only [optMax, sourceRank]
        exact Nat.succ_le_succ (ValueSource.toNat_le_max_left t s)
  · intro l mx hmx
    cases l with
    | nil => simp [sourceMax] at hmx
    | cons s rest =>
        have h1 : sourceMax (s :: rest) = rest.foldl optMax (some s) := by
          simp [sourceMax, optMax]
        obtain ⟨mx2, h2, h3, h4, h5⟩ := foldl_optMax_some rest s
        rw [h1, h2] at hmx
        cases hmx
        constructor
        · rcases h3 with h3 | h3
          · rw [h3]; exact List.mem_cons_self s rest
          · exact List.mem_cons_of_mem s h3
        · intro u hu
          rcases List.mem_cons.mp hu with hu | hu
          · subst hu; exact h4
          · exact h5 u hu
  · intro l hl
    cases l with
    | nil => exact absurd rfl hl
    | cons s rest =>
        have h1 : sourceMax (s :: rest) = rest.foldl optMax (some s) := by
          simp [sourceMax, optMax]
        obtain ⟨mx2, h2, _, _, _⟩ := foldl_optMax_some rest s
        rw [h1, h2]
        rfl

/-- Witness for claim C3: the spec's example, DefaultValue then CommandLine then
EnvVariable, ends at CommandLine, which is a member of the list and dominates it. -/
theorem record_source_monotone_max_witness :
    ValueSource.CommandLine ∈
        [ValueSource.DefaultValue, ValueSource.CommandLine, ValueSource.EnvVariable]
    ∧ (∀ s ∈ [ValueSource.DefaultValue, ValueSource.CommandLine, ValueSource.EnvVariable],
        s.toNat ≤ ValueSource.CommandLine.toNat) :=
  record_source_monotone_max.2.2.1
    [ValueSource.DefaultValue, ValueSource.CommandLine, ValueSource.EnvVariable]
    ValueSource.CommandLine rfl

lemma appendLastGroup_append_last {β : Type} (x : β) (gs : List (List β)) (g : List β) :
    appendLastGroup x (gs ++ [g]) = some (gs ++ [g ++ [x]]) := by
  induction gs with
  | nil => rfl
  | cons a rest ih =>
      cases rest with
      | nil => rfl
      | cons b rest2 =>
          have h1 : appendLastGroup x ((a :: b :: rest2) ++ [g]) =
              (appendLastGroup x ((b :: rest2) ++ [g])).map (fun t => a :: t) := rfl
          rw [h1, ih]
          rfl

lemma appendLastGroup_ne_nil {β : Type} {x : β} {l l2 : List (List β)}
    (h : appendLastGroup x l = some l2) : l ≠ [] := by
  intro he
  rw [he] at h
  exact Option.noConfusion h

lemma append_val_eq_some {α : Type} {m m' : MatchedArg α} {v : α} {r : String}
    (h : m.append_val v r = some m') :
    ∃ vs v0 rs r0, m.vals = vs ++ [v0] ∧ m.raw_vals = rs ++ [r0] ∧
      m' = ⟨m.occurs, m.ty, m.indices, vs ++ [v0 ++ [v]], rs ++ [r0 ++ [r]],
        m.ignore_case⟩ := by
  rcases Option.bind_eq_some.mp h with ⟨vals2, hv, hmap⟩
  rcases Option.map_eq_some'.mp hmap with ⟨raws2, hr, hm'⟩
  have hvne : m.vals ≠ [] := appendLastGroup_ne_nil hv
  have hrne : m.raw_vals ≠ [] := appendLastGroup_ne_nil hr
  refine ⟨m.vals.dropLast, m.vals.getLast hvne, m.raw_vals.dropLast,
    m.raw_vals.getLast hrne, (List.dropLast_append_getLast hvne).symm,
    (List.dropLast_append_getLast hrne).symm, ?_⟩
  rw [← List.dropLast_append_getLast hvne, appendLastGroup_append_last] at hv
  rw [← List.dropLast_append_getLast hrne, appendLastGroup_append_last] at hr
  cases hv
  cases hr
  exact hm'.symm

/-- Shape parity between the typed and the raw grouped values: same group count
and, index for index, the same group length. -/
def sameShape {α : Type} (m : MatchedArg α) : Prop :=
  m.vals.map List.length = m.raw_vals.map List.length

lemma applyValOp_sameShape {α : Type} {m m' : MatchedArg α} {op : ValOp α}
    (hs : sameShape m) (h : m.applyValOp op = some m') : sameShape m' := by
  cases op with
  | newGroup =>
      cases h
      simp [sameShape, MatchedArg.new_val_group] at hs ⊢
      exact hs
  | pushOne v r =>
      cases h
      simp [sameShape, MatchedArg.push_val] at hs ⊢
      exact hs
  | appendOne v r =>
      rcases append_val_eq_some h with ⟨vs, v0, rs, r0, hv, hr, hm'⟩
      rw [hm']
      rw [sameShape, hv, hr] at hs
      simp only [List.map_append, List.map_cons, List.map_nil] at hs
      rcases List.append_inj' hs rfl with ⟨h1, h2⟩
      have h3 : v0.length = r0.length := by
        have := List.head_eq_of_cons_eq h2
        simpa using this
      simp only [sameShape, List.map_append, List.map_cons, List.map_nil,
        List.length_append, List.length_cons, h3, h1]
      rfl

lemma applyValOps_sameShape {α : Type} (ops : List (ValOp α)) :
    ∀ {m m' : MatchedArg α}, sameShape m → m.applyValOps ops = some m' →
      sameShape m' := by
  induction ops with
  | nil =>
      intro m m' hs h
      cases h
      exact hs
  | cons op rest ih =>
      intro m m' hs h
      rcases Option.bind_eq_some.mp h with ⟨m2, h1, h2⟩
      exact ih (applyValOp_sameShape hs h1) h2

/-- Claim C4: every record reachable from a fresh one by grouping operations that
do not hit the append panic has typed and raw group sequences of identical shape:
the same number of groups, and the same length at every group index. -/
theorem value_groups_shape_invariant {α : Type} (ops : List (ValOp α))
    (m : MatchedArg α) (h : MatchedArg.applyValOps MatchedArg.new ops = some m) :
    m.vals.length = m.raw_vals.length ∧
      m.vals.map List.length = m.raw_vals.map List.length := by
  have hs : sameShape m := applyValOps_sameShape ops (by simp [sameShape, MatchedArg.new]) h
  refine ⟨?_, hs⟩
  have := congrArg List.length hs
  simpa using this

/-- Witness for claim C4: a concrete run with a singleton push, a group opening
and an append keeps both sequences in the same shape. -/
theorem value_groups_shape_invariant_witness :
    ([[1], [2]] : List (List Nat)).length = ([["a"], ["b"]] : List (List String)).length
    ∧ ([[1], [2]] : List (List Nat)).map List.length =
        ([["a"], ["b"]] : List (List String)).map List.length :=
  value_groups_shape_invariant
    [ValOp.pushOne 1 "a", ValOp.newGroup, ValOp.appendOne 2 "b"]
    ⟨0, none, [], [[1], [2]], [["a"], ["b"]], false⟩ rfl

lemma applyValOp_num {α : Type} {m m' : MatchedArg α} {op : ValOp α}
    (h : m.applyValOp op = some m') : m'.num_vals = m.num_vals + op.valCount := by
  cases op with
  | newGroup =>
      cases h
      simp [MatchedArg.num_vals, MatchedArg.new_val_group, ValOp.valCount]
  | pushOne v r =>
      cases h
      simp [MatchedArg.num_vals, MatchedArg.push_val, ValOp.valCount]
  | appendOne v r =>
      rcases append_val_eq_some h with ⟨vs, v0, rs, r0, hv, hr, hm'⟩
      rw [hm']
      simp [MatchedArg.num_vals, hv, ValOp.valCount, Nat.add_assoc]

lemma applyValOps_num {α : Type} (ops : List (ValOp α)) :
    ∀ {m m' : MatchedArg α}, m.applyValOps ops = some m' →
      m'.num_vals = m.num_vals + valOpsCount ops := by
  induction ops with
  | nil =>
      intro m m' h
      cases h
      simp [valOpsCount]
  | cons op rest ih =>
      intro m m' h
      rcases Option.bind_eq_some.mp h with ⟨m2, h1, h2⟩
      have hcons : valOpsCount (op :: rest) = op.valCount + valOpsCount rest := by
        simp [valOpsCount]
      rw [ih h2, applyValOp_num h1, hcons, Nat.add_assoc]

/-- Claim C5: for any grouping-operation run from a fresh record, num_vals equals
the number of values pushed, new_val_group adds exactly one empty trailing group
to both sequences, and push_val adds exactly one trailing singleton group holding
the pushed typed and raw value. -/
theorem grouping_round_trip (α : Type) :
    (∀ (ops : List (ValOp α)) (m : MatchedArg α),
        MatchedArg.applyValOps MatchedArg.new ops = some m →
        m.num_vals = valOpsCount ops)
    ∧ (∀ m : MatchedArg α,
        m.new_val_group.vals = m.vals ++ [[]] ∧
          m.new_val_group.raw_vals = m.raw_vals ++ [[]] ∧
          m.new_val_group.num_vals = m.num_vals)
    ∧ (∀ (m : MatchedArg α) (v : α) (r : String),
        (m.push_val v r).vals = m.vals ++ [[v]] ∧
          (m.push_val v r).raw_vals = m.raw_vals ++ [[r]]) := by
  refine ⟨?_, ?_, ?_⟩
  · intro ops m h
    have := applyValOps_num ops h
    simpa [MatchedArg.new, MatchedArg.num_vals] using this
  · intro m
    exact ⟨rfl, rfl, by simp [MatchedArg.num_vals, MatchedArg.new_val_group]⟩
  · intro m v r
    exact ⟨rfl, rfl⟩

/-- Witness for claim C5: the grouped-values test sequence of matched_arg.rs
(push aaa; group; append bbb, ccc; group; append ddd; push eee; group; append
fff, ggg, hhh, iii) flattens to nine values. -/
theorem grouping_round_trip_witness :
    MatchedArg.num_vals
        (⟨0, none, [],
          [["aaa"], ["bbb", "ccc"], ["ddd"], ["eee"], ["fff", "ggg", "hhh", "iii"]],
          [["aaa"], ["bbb", "ccc"], ["ddd"], ["eee"], ["fff", "ggg", "hhh", "iii"]],
          false⟩ : MatchedArg String) =
      valOpsCount
        [ValOp.pushOne "aaa" "aaa", ValOp.newGroup, ValOp.appendOne "bbb" "bbb",
         ValOp.appendOne "ccc" "ccc", ValOp.newGroup, ValOp.appendOne "ddd" "ddd",
         ValOp.pushOne "eee" "eee", ValOp.newGroup, ValOp.appendOne "fff" "fff",
         ValOp.appendOne "ggg" "ggg", ValOp.appendOne "hhh" "hhh",
         ValOp.appendOne "iii" "iii"] :=
  (grouping_round_trip String).1
    [ValOp.pushOne "aaa" "aaa", ValOp.newGroup, ValOp.appendOne "bbb" "bbb",
     ValOp.appendOne "ccc" "ccc", ValOp.newGroup, ValOp.appendOne "ddd" "ddd",
     ValOp.pushOne "eee" "eee", ValOp.newGroup, ValOp.appendOne "fff" "fff",
     ValOp.appendOne "ggg" "ggg", ValOp.appendOne "hhh" "hhh",
     ValOp.appendOne "iii" "iii"]
    ⟨0, none, [],
      [["aaa"], ["bbb", "ccc"], ["ddd"], ["eee"], ["fff", "ggg", "hhh", "iii"]],
      [["aaa"], ["bbb", "ccc"], ["ddd"], ["eee"], ["fff", "ggg", "hhh", "iii"]],
      false⟩ rfl

/-- Claim C6: with at least one group present in both sequences, append_val
succeeds and extends exactly the last group of each; with zero groups it hits
its failure branch (the modelled panic, not a recoverable result). -/
theorem append_val_requires_group (α : Type) :
    (∀ (m : MatchedArg α) (v : α) (r : String) (gs : List (List α)) (g : List α)
        (rs : List (List String)) (rg : List String),
        m.vals = gs ++ [g] → m.raw_vals = rs ++ [rg] →
        m.append_val v r =
          some ⟨m.occurs, m.ty, m.indices, gs ++ [g ++ [v]], rs ++ [rg ++ [r]],
            m.ignore_case⟩)
    ∧ (∀ (m : MatchedArg α) (v : α) (r : String),
        m.has_val_groups = false → m.append_val v r = none) := by
  constructor
  · intro m v r gs g rs rg hv hr
    simp [MatchedArg.append_val, hv, hr, appendLastGroup_append_last]
  · intro m v r h
    have hnil : m.vals = [] := by
      simpa [MatchedArg.has_val_groups, List.isEmpty_iff] using h
    simp [MatchedArg.append_val, hnil, appendLastGroup]

/-- Witness for claim C6: appending to a one-group record extends that group in
both sequences, while appending to a fresh record fails. -/
theorem append_val_requires_group_witness :
    MatchedArg.append_val (⟨2, none, [7], [[1]], [["a"]], false⟩ : MatchedArg Nat) 2 "b" =
      some ⟨2, none, [7], [[1, 2]], [["a", "b"]], false⟩
    ∧ MatchedArg.append_val (MatchedArg.new : MatchedArg Nat) 2 "b" = none :=
  ⟨(append_val_requires_group Nat).1 ⟨2, none, [7], [[1]], [["a"]], false⟩ 2 "b"
      [] [1] [] ["a"] rfl rfl,
    (append_val_requires_group Nat).2 MatchedArg.new 2 "b" rfl⟩

/-- Claim C7: record equality compares exactly occurs, ty, indices, raw_vals and
ignore_case, so records differing only in the typed value groups are equal. -/
theorem matched_arg_eq_ignores_typed_vals (α : Type) :
    (∀ m1 m2 : MatchedArg α, m1.eq m2 = true ↔
        (m1.occurs = m2.occurs ∧ m1.ty = m2.ty ∧ m1.indices = m2.indices ∧
          m1.raw_vals = m2.raw_vals ∧ m1.ignore_case = m2.ignore_case))
    ∧ (∀ (m : MatchedArg α) (v1 v2 : List (List α)),
        MatchedArg.eq ⟨m.occurs, m.ty, m.indices, v1, m.raw_vals, m.ignore_case⟩
          ⟨m.occurs, m.ty, m.indices, v2, m.raw_vals, m.ignore_case⟩ = true) := by
  constructor
  · intro m1 m2
    simp [MatchedArg.eq, and_assoc]
  · intro m v1 v2
    simp [MatchedArg.eq]

lemma flatten_head_skip_empty {β : Type} (gs : List (List β)) (v : β) (g : List β)
    (rest : List (List β)) (hgs : ∀ e ∈ gs, e = []) :
    (gs ++ (v :: g) :: rest).flatten.head? = some v := by
  induction gs with
  | nil => simp
  | cons a gs2 ih =>
      have ha : a = [] := hgs a (List.mem_cons_self a gs2)
      rw [List.cons_append, List.flatten_cons, ha]
      simpa using ih (fun e he => hgs e (List.mem_cons_of_mem a he))

/-- Claim C10: first (and first_raw) return the head of the first non-empty
group, skipping leading empty groups, and are none exactly when every group is
empty or there is no group at all. -/
theorem first_skips_leading_empty_groups (α : Type) :
    (∀ (m : MatchedArg α) (gs : List (List α)) (v : α) (g : List α)
        (rest : List (List α)),
        m.vals = gs ++ (v :: g) :: rest → (∀ e ∈ gs, e = []) → m.first = some v)
    ∧ (∀ m : MatchedArg α, m.first = none ↔ ∀ g ∈ m.vals, g = [])
    ∧ (∀ (m : MatchedArg α) (gs : List (List String)) (v : String) (g : List String)
        (rest : List (List String)),
        m.raw_vals = gs ++ (v :: g) :: rest → (∀ e ∈ gs, e = []) →
        m.first_raw = some v)
    ∧ (∀ m : MatchedArg α, m.first_raw = none ↔ ∀ g ∈ m.raw_vals, g = []) := by
  refine ⟨?_, ?_, ?_, ?_⟩
  · intro m gs v g rest hv hgs
    rw [MatchedArg.first, MatchedArg.vals_flatten, hv]
    exact flatten_head_skip_empty gs v g rest hgs
  · intro m
    rw [MatchedArg.first, MatchedArg.vals_flatten, List.head?_eq_none_iff,
      List.flatten_eq_nil_iff]
  · intro m gs v g rest hr hgs
    rw [MatchedArg.first_raw, MatchedArg.raw_vals_flatten, hr]
    exact flatten_head_skip_empty gs v g rest hgs
  · intro m
    rw [MatchedArg.first_raw, MatchedArg.raw_vals_flatten, List.head?_eq_none_iff,
      List.flatten_eq_nil_iff]

/-- Witness for claim C10: the record of the grouped-vals-first test (two opened
groups, bbb and ccc appended to the second) has first raw value bbb, and so does
its typed side. -/
theorem first_skips_leading_empty_groups_witness :
    MatchedArg.first_raw
        (⟨0, none, [], [[], ["bbb", "ccc"]], [[], ["bbb", "ccc"]], false⟩ :
          MatchedArg String) = some "bbb"
    ∧ MatchedArg.first
        (⟨0, none, [], [[], ["bbb", "ccc"]], [[], ["bbb", "ccc"]], false⟩ :
          MatchedArg String) = some "bbb" :=
  ⟨(first_skips_leading_empty_groups String).2.2.1
      ⟨0, none, [], [[], ["bbb", "ccc"]], [[], ["bbb", "ccc"]], false⟩
      [[]] "bbb" ["ccc"] [] rfl (by simp),
    (first_skips_leading_empty_groups String).1
      ⟨0, none, [], [[], ["bbb", "ccc"]], [[], ["bbb", "ccc"]], false⟩
      [[]] "bbb" ["ccc"] [] rfl (by simp)⟩

/-- Claim C8: for a record not sourced from a default value, an equality
predicate holds exactly when some flattened raw value compares equal to the
target, case-insensitively when ignore_case is set and exactly otherwise, and a
presence predicate always holds. -/
theorem check_explicit_equality_semantics (α : Type) (m : MatchedArg α) (t : String)
    (h : m.source ≠ some ValueSource.DefaultValue) :
    (m.ignore_case = true →
      (m.check_explicit (ArgPredicate.Equals t) = true ↔
        ∃ v ∈ m.raw_vals.flatten, eq_ignore_case v t = true))
    ∧ (m.ignore_case = false →
      (m.check_explicit (ArgPredicate.Equals t) = true ↔
        ∃ v ∈ m.raw_vals.flatten, v = t))
    ∧ m.check_explicit ArgPredicate.IsPresent = true := by
  have hty : ¬ m.ty = some ValueSource.DefaultValue := h
  refine ⟨?_, ?_, ?_⟩
  · intro hic
    simp [MatchedArg.check_explicit, hty, hic, List.any_eq_true]
    tauto
  · intro hic
    simp [MatchedArg.check_explicit, hty, hic, List.any_eq_true]
  · simp [MatchedArg.check_explicit, hty]

/-- Witness for claim C8: a command-line-sourced, case-insensitive record holding
FoO matches the target foo, and satisfies the presence predicate. -/
theorem check_explicit_equality_semantics_witness :
    MatchedArg.check_explicit
        (⟨1, some ValueSource.CommandLine, [], [[0]], [["FoO"]], true⟩ : MatchedArg Nat)
        (ArgPredicate.Equals "foo") = true
    ∧ MatchedArg.check_explicit
        (⟨1, some ValueSource.CommandLine, [], [[0]], [["FoO"]], true⟩ : MatchedArg Nat)
        ArgPredicate.IsPresent = true := by
  have h := check_explicit_equality_semantics Nat
    ⟨1, some ValueSource.CommandLine, [], [[0]], [["FoO"]], true⟩ "foo" (by decide)
  exact ⟨(h.1 rfl).mpr ⟨"FoO", by simp, by decide⟩, h.2.2⟩

lemma applyRecOp_occ_indices {α : Type} {m m' : MatchedArg α} {op : RecOp α}
    (h : m.applyRecOp op = some m') :
    m'.occurs = m.occurs + (match op with | RecOp.incOcc => 1 | _ => 0) ∧
      m'.indices = m.indices ++ (match op with | RecOp.pushIdx i => [i] | _ => []) := by
  cases op with
  | incOcc => cases h; exact ⟨rfl, by simp [MatchedArg.inc_occurrences]⟩
  | pushIdx i => cases h; exact ⟨rfl, rfl⟩
  | pushOneOp v r => cases h; exact ⟨rfl, by simp [MatchedArg.push_val]⟩
  | newGroupOp => cases h; exact ⟨rfl, by simp [MatchedArg.new_val_group]⟩
  | appendOp v r =>
      rcases append_val_eq_some h with ⟨vs, v0, rs, r0, hv, hr, hm'⟩
      subst hm'
      exact ⟨rfl, by simp⟩
  | setIgnore b => cases h; exact ⟨rfl, by simp [MatchedArg.set_ignore_case]⟩
  | recSource s =>
      cases h
      cases hty : m.ty <;> simp [MatchedArg.update_ty, hty]

lemma applyRecOps_occ_indices {α : Type} (ops : List (RecOp α)) :
    ∀ {m m' : MatchedArg α}, m.applyRecOps ops = some m' →
      m'.occurs = m.occurs + recOpsOccCount ops ∧
        m'.indices = m.indices ++ recOpsIndices ops := by
  induction ops with
  | nil =>
      intro m m' h
      cases h
      exact ⟨by simp [recOpsOccCount], by simp [recOpsIndices]⟩
  | cons op rest ih =>
      intro m m' h
      rcases Option.bind_eq_some.mp h with ⟨m2, h1, h2⟩
      obtain ⟨ho1, hi1⟩ := applyRecOp_occ_indices h1
      obtain ⟨ho2, hi2⟩ := ih h2
      constructor
      · rw [ho2, ho1]
        cases op <;> (simp [recOpsOccCount, List.filterMap_cons]; try omega)
      · rw [hi2, hi1]
        cases op <;> simp [recOpsIndices, List.filterMap_cons]

/-- Counterexample to claim C9: a single inc_occurrences call, a public record
operation, yields a record whose indices are strictly shorter than its
occurrence count. -/
theorem indices_cover_occurrences_counterexample :
    MatchedArg.applyRecOps (MatchedArg.new : MatchedArg Nat) [RecOp.incOcc] =
      some ⟨1, none, [], [], [], false⟩
    ∧ ¬ ((⟨1, none, [], [], [], false⟩ : MatchedArg Nat).occurs ≤
          (⟨1, none, [], [], [], false⟩ : MatchedArg Nat).indices.length) :=
  ⟨rfl, by decide⟩

/-- Claim C9 (amended): the record's operations do not by themselves force the
indices-cover-occurrences invariant; for any operation run from a fresh record
that does not hit the append panic, occurrences equals the number of
inc_occurrences calls and indices lists exactly the pushed positions in call
order, so whenever at least one index is pushed per occurrence the length of
indices is at least the occurrence count. -/
theorem indices_cover_occurrences_amended {α : Type} (ops : List (RecOp α))
    (m : MatchedArg α) (h : MatchedArg.applyRecOps MatchedArg.new ops = some m) :
    m.occurs = recOpsOccCount ops ∧ m.indices = recOpsIndices ops ∧
      (recOpsOccCount ops ≤ (recOpsIndices ops).length →
        m.occurs ≤ m.indices.length) := by
  obtain ⟨ho, hi⟩ := applyRecOps_occ_indices ops h
  have ho2 : m.occurs = recOpsOccCount ops := by
    simpa [MatchedArg.new] using ho
  have hi2 : m.indices = recOpsIndices ops := by
    simpa [MatchedArg.new] using hi
  exact ⟨ho2, hi2, by intro hle; rw [ho2, hi2]; exact hle⟩

/-- Witness for claim C9 (amended): one occurrence with its index pushed at
position five satisfies the invariant. -/
theorem indices_cover_occurrences_amended_witness :
    (⟨1, none, [5], [], [], false⟩ : MatchedArg Nat).occurs =
        recOpsOccCount ([RecOp.incOcc, RecOp.pushIdx 5] : List (RecOp Nat))
    ∧ (⟨1, none, [5], [], [], false⟩ : MatchedArg Nat).indices =
        recOpsIndices ([RecOp.incOcc, RecOp.pushIdx 5] : List (RecOp Nat))
    ∧ (⟨1, none, [5], [], [], false⟩ : MatchedArg Nat).occurs ≤
        (⟨1, none, [5], [], [], false⟩ : MatchedArg Nat).indices.length := by
  have h := indices_cover_occurrences_amended
    ([RecOp.incOcc, RecOp.pushIdx 5] : List (RecOp Nat)) ⟨1, none, [5], [], [], false⟩ rfl
  exact ⟨h.1, h.2.1, h.2.2 (by decide)⟩

/-- Modelled from the spec: a positional Argument Specification — identity,
required marker, multiple-values arity, the reserved last marker, and hyphen
tolerance (the builder that produces these lives outside the provided sources). -/
structure PosSpec where
  name : String
  required : Bool
  multiple : Bool
  last : Bool
  allow_hyphen : Bool
deriving DecidableEq, Repr

/-- Modelled from the spec: a flag Argument Specification — identity, long and
short names, whether it takes a value, multiple-values arity, hyphen tolerance
and the required marker. -/
structure FlagSpec where
  name : String
  long : Option String
  short : Option Char
  takes_value : Bool
  multiple : Bool
  allow_hyphen : Bool
  required : Bool
deriving DecidableEq, Repr

/-- Modelled from the spec: a token is flag-shaped when it starts with a hyphen
and has at least one more character; a lone hyphen is a plain value. -/
def isFlagLike (s : String) : Bool :=
  match s.data with
  | '-' :: _ :: _ => true
  | _ => false

/-- Modelled from the spec: a flag-shaped token resolves against a flag spec by
its long name after a double hyphen or its short name after a single hyphen. -/
def flagTokenMatches (f : FlagSpec) (tok : String) : Bool :=
  (match f.long with
   | some l => tok.data == '-' :: '-' :: l.data
   | none => false) ||
  (match f.short with
   | some c => tok.data == ['-', c]
   | none => false)

/-- Modelled from the spec: the user-input error kinds of the resolution pass. -/
inductive ParseError where
  | UnknownArgument
  | MissingRequiredArgument
deriving DecidableEq, Repr

/-- Modelled from the spec: resolution state — the value assignments made so far
as identity-token pairs in encounter order, the identities seen at least once,
whether the literal separator has been consumed, the positional cursor, and the
flag spec currently consuming values, if any. -/
structure RState where
  assigns : List (String × String)
  seen : List String
  afterSep : Bool
  cursor : Nat
  pending : Option FlagSpec

/-- Modelled from the spec: scan a positional-spec suffix for the first spec not
flagged last, with its offset; last-flagged specs are skipped by the cursor. -/
def findNonLast : List PosSpec → Option (Nat × PosSpec)
  | [] => none
  | s :: rest =>
      if s.last then (findNonLast rest).map (fun p => (p.1 + 1, p.2))
      else some (0, s)

/-- Modelled from the spec: the positional spec a token is offered to. Before the
separator, the first non-last spec at or after the cursor. After the separator,
the last-flagged spec when one is declared (tokens after the separator are
assigned to the last positional), otherwise plain cursor progression. -/
def posTarget (pos : List PosSpec) (cursor : Nat) (afterSep : Bool) :
    Option (Nat × PosSpec) :=
  if afterSep then
    match pos.findIdx? (fun s => s.last) with
    | some i => (pos[i]?).map (fun s => (i, s))
    | none => ((pos.drop cursor).head?).map (fun s => (cursor, s))
  else (findNonLast (pos.drop cursor)).map (fun p => (cursor + p.1, p.2))

/-- Modelled from the spec: consume one token into a positional spec found at
absolute index i: record the assignment and the occurrence, and advance the
cursor past the spec only when its arity is satisfied (a multiple-values spec is
never considered satisfied by the cursor). -/
def posConsume (st : RState) (i : Nat) (s : PosSpec) (tok : String) : RState :=
  ⟨st.assigns ++ [(s.name, tok)], s.name :: st.seen, st.afterSep,
    if s.multiple then i else i + 1, st.pending⟩

/-- Modelled from the spec: classify one token in the ExpectingAny state. After
the separator every token is a bare value routed to positional resolution; the
exact double-hyphen token turns the separator state on; a flag-shaped token
resolves against the flag specs and otherwise may still be accepted by a
hyphen-tolerant positional; everything else is routed to positional resolution.
Unplaceable tokens fail with UnknownArgument. -/
def classify (pos : List PosSpec) (flags : List FlagSpec) (st : RState)
    (tok : String) : Except ParseError RState :=
  if st.afterSep then
    match posTarget pos st.cursor st.afterSep with
    | some (i, s) => Except.ok (posConsume st i s tok)
    | none => Except.error ParseError.UnknownArgument
  else if tok = "--" then
    Except.ok ⟨st.assigns, st.seen, true, st.cursor, st.pending⟩
  else if isFlagLike tok then
    match flags.find? (fun f => flagTokenMatches f tok) with
    | some f =>
        Except.ok ⟨st.assigns, f.name :: st.seen, st.afterSep, st.cursor,
          if f.takes_value then some f else none⟩
    | none =>
        match posTarget pos st.cursor st.afterSep with
        | some (i, s) =>
            if s.allow_hyphen then Except.ok (posConsume st i s tok)
            else Except.error ParseError.UnknownArgument
        | none => Except.error ParseError.UnknownArgument
  else
    match posTarget pos st.cursor st.afterSep with
    | some (i, s) => Except.ok (posConsume st i s tok)
    | none => Except.error ParseError.UnknownArgument

/-- Modelled from the spec: the post-pass required check — every required spec
must have been seen at least once, otherwise MissingRequiredArgument. -/
def requiredOk (pos : List PosSpec) (flags : List FlagSpec) (seen : List String) :
    Bool :=
  pos.all (fun s => !s.required || seen.contains s.name) &&
    flags.all (fun f => !f.required || seen.contains f.name)

/-- Modelled from the spec: the single left-to-right resolution pass. A flag spec
currently consuming a value takes the token when the separator was consumed, the
flag tolerates hyphens, or the token is not flag-shaped; a flag-shaped token
closes the expectation and is reclassified. -/
def resolveGo (pos : List PosSpec) (flags : List FlagSpec) :
    List String → RState → Except ParseError (List (String × String))
  | [], st =>
      if requiredOk pos flags st.seen then Except.ok st.assigns
      else Except.error ParseError.MissingRequiredArgument
  | tok :: rest, st =>
      match st.pending with
      | some f =>
          if st.afterSep || f.allow_hyphen || !(isFlagLike tok) then
            resolveGo pos flags rest
              ⟨st.assigns ++ [(f.name, tok)], st.seen, st.afterSep, st.cursor,
                if f.multiple then some f else none⟩
          else
            match classify pos flags ⟨st.assigns, st.seen, st.afterSep, st.cursor,
                none⟩ tok with
            | Except.ok st2 => resolveGo pos flags rest st2
            | Except.error e => Except.error e
      | none =>
          match classify pos flags st tok with
          | Except.ok st2 => resolveGo pos flags rest st2
          | Except.error e => Except.error e

/-- Modelled from the spec: full resolution of a token list against positional
and flag specifications, from the initial state. -/
def resolve (pos : List PosSpec) (flags : List FlagSpec) (tokens : List String) :
    Except ParseError (List (String × String)) :=
  resolveGo pos flags tokens ⟨[], [], false, 0, none⟩

/-- Does an assignment identity belong to a non-last positional spec or to a
flag spec? -/
def nonLastAssign (pos : List PosSpec) (flags : List FlagSpec)
    (p : String × String) : Bool :=
  pos.any (fun s => decide (s.name = p.1) && !s.last) ||
    flags.any (fun f => decide (f.name = p.1))

/-- The three positional specs of the last-positional tests: a required TARGET,
an optional CORPUS, and a multiple-values ARGS flagged last. -/
def lastSpecsExample : List PosSpec :=
  [⟨"TARGET", true, false, false, false⟩, ⟨"CORPUS", false, false, false, false⟩,
    ⟨"ARGS", false, true, true, false⟩]

lemma findNonLast_mem_not_last {l : List PosSpec} {i : Nat} {s : PosSpec}
    (h : findNonLast l = some (i, s)) : s ∈ l ∧ s.last = false := by
  induction l generalizing i with
  | nil => exact Option.noConfusion h
  | cons s0 rest ih =>
      by_cases h0 : s0.last
      · rw [findNonLast, if_pos h0] at h
        rcases Option.map_eq_some'.mp h with ⟨⟨i2, s2⟩, hp, he⟩
        injection he with he1 he2
        subst he2
        obtain ⟨hm, hl⟩ := ih hp
        exact ⟨List.mem_cons_of_mem s0 hm, hl⟩
      · rw [findNonLast, if_neg h0] at h
        have h2 : (0, s0) = (i, s) := Option.some.inj h
        injection h2 with h3 h4
        subst h4
        exact ⟨List.mem_cons_self _ _, Bool.eq_false_iff.mpr h0⟩

lemma findNonLast_all_last {l : List PosSpec} (h : ∀ s ∈ l, s.last = true) :
    findNonLast l = none := by
  induction l with
  | nil => rfl
  | cons s0 rest ih =>
      rw [findNonLast, if_pos (h s0 (List.mem_cons_self s0 rest))]
      rw [ih (fun s hs => h s (List.mem_cons_of_mem s0 hs))]
      rfl

lemma posTarget_no_sep_mem_not_last {pos : List PosSpec} {cursor : Nat} {i : Nat}
    {s : PosSpec} (h : posTarget pos cursor false = some (i, s)) :
    s ∈ pos ∧ s.last = false := by
  rw [posTarget, if_neg (by simp)] at h
  rcases Option.map_eq_some'.mp h with ⟨⟨i2, s2⟩, hp, he⟩
  injection he with he1 he2
  subst he2
  obtain ⟨hm, hl⟩ := findNonLast_mem_not_last hp
  exact ⟨List.drop_subset cursor pos hm, hl⟩

lemma posTarget_no_sep_all_last {pos : List PosSpec} {cursor : Nat}
    (h : ∀ s ∈ pos.drop cursor, s.last = true) :
    posTarget pos cursor false = none := by
  rw [posTarget, if_neg (by simp), findNonLast_all_last h]
  rfl

/-- The run invariant before a separator is seen: the separator state is off,
every assignment so far names a non-last positional or a flag, and any pending
value expectation belongs to a declared flag. -/
def StInv (pos : List PosSpec) (flags : List FlagSpec) (st : RState) : Prop :=
  st.afterSep = false ∧
    (∀ p ∈ st.assigns, nonLastAssign pos flags p = true) ∧
    (∀ f, st.pending = some f → f ∈ flags)

lemma nonLastAssign_of_pos {pos : List PosSpec} {flags : List FlagSpec}
    {s : PosSpec} (hm : s ∈ pos) (hl : s.last = false) (tok : String) :
    nonLastAssign pos flags (s.name, tok) = true := by
  rw [nonLastAssign, Bool.or_eq_true, List.any_eq_true]
  exact Or.inl ⟨s, hm, by simp [hl]⟩

lemma nonLastAssign_of_flag {pos : List PosSpec} {flags : List FlagSpec}
    {f : FlagSpec} (hm : f ∈ flags) (tok : String) :
    nonLastAssign pos flags (f.name, tok) = true := by
  rw [nonLastAssign, Bool.or_eq_true]
  exact Or.inr (List.any_eq_true.mpr ⟨f, hm, by simp⟩)

lemma stInv_posConsume {pos : List PosSpec} {flags : List FlagSpec} {st : RState}
    {i : Nat} {s : PosSpec} {tok : String} (hsep : st.afterSep = false)
    (hass : ∀ p ∈ st.assigns, nonLastAssign pos flags p = true)
    (hpend : ∀ f, st.pending = some f → f ∈ flags)
    (hm : s ∈ pos) (hl : s.last = false) :
    StInv pos flags (posConsume st i s tok) := by
  refine ⟨hsep, ?_, hpend⟩
  intro p hp
  rcases List.mem_append.mp hp with hp | hp
  · exact hass p hp
  · rcases List.mem_singleton.mp hp with rfl
    exact nonLastAssign_of_pos hm hl tok

lemma classify_inv {pos : List PosSpec} {flags : List FlagSpec} {st st2 : RState}
    {tok : String} (htok : tok ≠ "--") (hinv : StInv pos flags st)
    (h : classify pos flags st tok = Except.ok st2) : StInv pos flags st2 := by
  obtain ⟨hsep, hass, hpend⟩ := hinv
  rw [classify, hsep] at h
  simp only [Bool.false_eq_true, if_false, if_neg htok] at h
  by_cases hfl : isFlagLike tok = true
  · rw [if_pos hfl] at h
    cases hfind : flags.find? (fun f => flagTokenMatches f tok) with
    | some f =>
        rw [hfind] at h
        cases h
        refine ⟨rfl, hass, ?_⟩
        intro f2 hf2
        by_cases htv : f.takes_value = true
        · simp only [htv, if_true] at hf2
          cases hf2
          exact List.mem_of_find?_eq_some hfind
        · simp only [htv] at hf2
          exact Option.noConfusion hf2
    | none =>
        rw [hfind] at h
        simp only at h
        cases hpt : posTarget pos st.cursor false with
        | none => rw [hpt] at h; exact Except.noConfusion h
        | some p =>
            obtain ⟨i, s⟩ := p
            rw [hpt] at h
            simp only at h
            by_cases hhy : s.allow_hyphen = true
            · rw [if_pos hhy] at h
              cases h
              obtain ⟨hm, hl⟩ := posTarget_no_sep_mem_not_last hpt
              exact stInv_posConsume hsep hass hpend hm hl
            · rw [if_neg hhy] at h
              exact Except.noConfusion h
  · rw [if_neg hfl] at h
    cases hpt : posTarget pos st.cursor false with
    | none => rw [hpt] at h; exact Except.noConfusion h
    | some p =>
        obtain ⟨i, s⟩ := p
        rw [hpt] at h
        simp only at h
        cases h
        obtain ⟨hm, hl⟩ := posTarget_no_sep_mem_not_last hpt
        exact stInv_posConsume hsep hass hpend hm hl

lemma resolveGo_inv {pos : List PosSpec} {flags : List FlagSpec}
    (tokens : List String) :
    ∀ (st : RState) (res : List (String × String)), (∀ t ∈ tokens, t ≠ "--") →
      StInv pos flags st → resolveGo pos flags tokens st = Except.ok res →
      ∀ p ∈ res, nonLastAssign pos flags p = true := by
  induction tokens with
  | nil =>
      intro st res hsep hinv h
      rw [resolveGo] at h
      by_cases hr : requiredOk pos flags st.seen = true
      · rw [if_pos hr] at h
        cases h
        exact hinv.2.1
      · rw [if_neg hr] at h
        exact Except.noConfusion h
  | cons tok rest ih =>
      intro st res htoks hinv h
      have htok : tok ≠ "--" := htoks tok (List.mem_cons_self tok rest)
      have hrest : ∀ t ∈ rest, t ≠ "--" :=
        fun t ht => htoks t (List.mem_cons_of_mem tok ht)
      rw [resolveGo] at h
      cases hp : st.pending with
      | some f =>
          rw [hp] at h
          simp only at h
          by_cases hc : (st.afterSep || f.allow_hyphen || !(isFlagLike tok)) = true
          · rw [if_pos hc] at h
            refine ih ⟨st.assigns ++ [(f.name, tok)], st.seen, st.afterSep,
              st.cursor, if f.multiple then some f else none⟩ res hrest
              ⟨hinv.1, ?_, ?_⟩ h
            · intro p hpm
              have hpm2 : p ∈ st.assigns ++ [(f.name, tok)] := hpm
              rcases List.mem_append.mp hpm2 with hpm3 | hpm3
              · exact hinv.2.1 p hpm3
              · rcases List.mem_singleton.mp hpm3 with rfl
                exact nonLastAssign_of_flag (hinv.2.2 f hp) tok
            · intro f2 hf2
              have hf3 : (if f.multiple = true then some f else none) = some f2 := hf2
              by_cases hm2 : f.multiple = true
              · rw [if_pos hm2] at hf3
                cases hf3
                exact hinv.2.2 f hp
              · rw [if_neg hm2] at hf3
                exact Option.noConfusion hf3
          · rw [if_neg hc] at h
            cases hcl : classify pos flags ⟨st.assigns, st.seen, st.afterSep,
                st.cursor, none⟩ tok with
            | ok st2 =>
                rw [hcl] at h
                have hinv0 : StInv pos flags ⟨st.assigns, st.seen, st.afterSep,
                    st.cursor, none⟩ :=
                  ⟨hinv.1, hinv.2.1, fun f2 hf2 => Option.noConfusion hf2⟩
                exact ih _ res hrest (classify_inv htok hinv0 hcl) h
            | error e =>
                rw [hcl] at h
                exact Except.noConfusion h
      | none =>
          rw [hp] at h
          simp only at h
          cases hcl : classify pos flags st tok with
          | ok st2 =>
              rw [hcl] at h
              exact ih _ res hrest (classify_inv htok hinv hcl) h
          | error e =>
              rw [hcl] at h
              exact Except.noConfusion h

/-- Claim C1: without a literal double-hyphen token, resolution never assigns a
token to a last-flagged positional — every assignment of a successful run names
a non-last positional or a flag — and a token that would reach only last-flagged
positionals is rejected as UnknownArgument; with the separator present, the
tokens after it go to the last positional: the TARGET, CORPUS, ARGS-last spec set
accepts "tgt" "--" "arg" with ARGS getting "arg" and rejects "tgt" "crp" "arg"
with UnknownArgument. -/
theorem last_positional_requires_separator :
    (∀ (pos : List PosSpec) (flags : List FlagSpec) (tokens : List String)
        (res : List (String × String)),
        (∀ t ∈ tokens, t ≠ "--") →
        resolve pos flags tokens = Except.ok res →
        ∀ p ∈ res, nonLastAssign pos flags p = true)
    ∧ (∀ (pos : List PosSpec) (flags : List FlagSpec) (st : RState) (tok : String),
        st.afterSep = false → tok ≠ "--" → isFlagLike tok = false →
        (∀ s ∈ pos.drop st.cursor, s.last = true) →
        classify pos flags st tok = Except.error ParseError.UnknownArgument)
    ∧ resolve lastSpecsExample [] ["tgt", "--", "arg"] =
        Except.ok [("TARGET", "tgt"), ("ARGS", "arg")]
    ∧ resolve lastSpecsExample [] ["tgt", "crp", "arg"] =
        Except.error ParseError.UnknownArgument := by
  refine ⟨?_, ?_, rfl, rfl⟩
  · intro pos flags tokens res hsep h
    refine resolveGo_inv tokens ⟨[], [], false, 0, none⟩ res hsep ⟨rfl, ?_, ?_⟩ h
    · intro p hp
      exact absurd hp (List.not_mem_nil p)
    · intro f hf
      exact Option.noConfusion hf
  · intro pos flags st tok hsep htok hfl hlast
    rw [classify, hsep]
    rw [if_neg (by simp), if_neg htok, if_neg (by simp [hfl]),
      posTarget_no_sep_all_last hlast]

/-- Witness for claim C1: in a one-token run the single assignment belongs to the
non-last TARGET spec, and a plain token offered when only the last-flagged ARGS
spec remains (separator not seen) is rejected as UnknownArgument. -/
theorem last_positional_requires_separator_witness :
    nonLastAssign lastSpecsExample [] ("TARGET", "tgt") = true
    ∧ classify lastSpecsExample [] ⟨[], [], false, 2, none⟩ "zzz" =
        Except.error ParseError.UnknownArgument :=
  ⟨last_positional_requires_separator.1 lastSpecsExample [] ["tgt"]
      [("TARGET", "tgt")] (by decide) rfl ("TARGET", "tgt") (by simp),
    last_positional_requires_separator.2.1 lastSpecsExample []
      ⟨[], [], false, 2, none⟩ "zzz" rfl (by decide) rfl (by decide)⟩

end Clap
